import Mathlib

/-
Verification of the plannotator core against its specification.

The embedding models, from the source:
  - the anchor resolver `findTextInDOM` (Viewer component),
  - annotation creation `createAnnotationFromSource` and
    `handleCodeBlockAnnotate` (Viewer component),
  - the highlight lifecycle (CREATE event handler, pending cleanup,
    redline auto-commit) (Viewer component),
  - removal (`removeHighlight`, `clearAllHighlights`) and shared-batch
    application (`applySharedAnnotations`) including the
    surroundContents / extract-and-reinsert wrap (Viewer component),
  - the identity store (packages/ui/utils/identity.ts),
  - the share codec (modelled from the spec; sharing.ts is not in src/).

JS strings are modelled as `List Char`; the DOM is a tree of element and
text nodes; character data and offsets are exact.
-/

/-- JS strings are modelled as lists of characters. -/
abbrev Str := List Char

/-- Model of JS String.prototype.indexOf restricted to string patterns:
the least index at which `pat` occurs in `s`, if any.  JS returns -1 when
absent; the model returns `none`.  For the empty pattern JS returns 0,
matched here because `[].isPrefixOf` always holds. -/
def firstIndex? : Str → Str → Option Nat
  | s, pat =>
    match s with
    | [] => if pat = [] then some 0 else none
    | _ :: tl => if pat.isPrefixOf s then some 0 else (firstIndex? tl pat).map (· + 1)

/-- `occursIn pat s` holds when `pat` occurs somewhere in `s`
(JS `s.indexOf(pat) !== -1`). -/
def occursIn (pat s : Str) : Bool := (firstIndex? s pat).isSome

/-- Model of `s.split(pat)[0]` for a nonempty pattern `pat`: the prefix of
`s` before the first occurrence of `pat`, or all of `s` when `pat` does not
occur.  (The degenerate JS behaviour of `split('')` is not modelled; the
code only splits on a nonempty user selection.) -/
def splitHead (s pat : Str) : Str :=
  match firstIndex? s pat with
  | some i => s.take i
  | none => s

/-- Model of a DOM node: a text node carrying character data, or an
element with a tag, an optional `data-bind-id` attribute (the attribute
the Viewer's manual highlight wrappers carry) and a list of children.
Attributes not consulted by the modelled code (classes, listeners) are
omitted. -/
inductive DomNode where
  | text (s : Str)
  | elem (tag : Str) (bindId : Option Str) (children : List DomNode)

mutual
/-- Text leaves below one node, in document order. -/
def nodeLeaves : DomNode → List Str
  | DomNode.text s => [s]
  | DomNode.elem _ _ cs => textLeaves cs
/-- Text leaves of a forest in document order: the sequence the Viewer's
TreeWalker with NodeFilter.SHOW_TEXT visits. -/
def textLeaves : List DomNode → List Str
  | [] => []
  | n :: rest => nodeLeaves n ++ textLeaves rest
end

/-- Flattened text of a forest (`container.textContent`). -/
def flattenForest (cs : List DomNode) : Str := (textLeaves cs).flatten

/-- Number of text leaves below one node. -/
def nodeLeafCount (n : DomNode) : Nat := (nodeLeaves n).length

mutual
/-- Whether the node or one of its descendants is an element with
`data-bind-id = bid`. -/
def hasBindIdNode : Str → DomNode → Bool
  | _, DomNode.text _ => false
  | bid, DomNode.elem _ b cs => b = some bid || hasBindId bid cs
/-- Whether some element of the forest carries `data-bind-id = bid`
(`querySelector` hit for the dedup check in applySharedAnnotations). -/
def hasBindId : Str → List DomNode → Bool
  | _, [] => false
  | bid, n :: rest => hasBindIdNode bid n || hasBindId bid rest
end

mutual
/-- Unwrapping inside one known-to-match node: if the node itself carries
the id, it is replaced by its children (`insertBefore` each child, then
`remove()`); otherwise the first match deeper inside is unwrapped. -/
def unwrapFirstNode : Str → DomNode → List DomNode
  | _, DomNode.text s => [DomNode.text s]
  | bid, DomNode.elem t b cs =>
    if b = some bid then cs else [DomNode.elem t b (unwrapFirst bid cs)]
/-- Model of `removeHighlight`'s manual branch: the first element in
document order with `data-bind-id = bid` (the `querySelector` match) is
replaced by its children. -/
def unwrapFirst : Str → List DomNode → List DomNode
  | _, [] => []
  | bid, n :: rest =>
    if hasBindIdNode bid n then unwrapFirstNode bid n ++ rest
    else n :: unwrapFirst bid rest
end

mutual
/-- Unwrapping every marked element below one node. -/
def unwrapAllNode : DomNode → List DomNode
  | DomNode.text s => [DomNode.text s]
  | DomNode.elem t b cs =>
    if b.isSome then unwrapAll cs else [DomNode.elem t b (unwrapAll cs)]
/-- Model of `clearAllHighlights`: every element carrying a
`data-bind-id` (the highlight wrappers) is replaced by its children. -/
def unwrapAll : List DomNode → List DomNode
  | [] => []
  | n :: rest => unwrapAllNode n ++ unwrapAll rest
end

mutual
/-- Splitting one node at text position `(k, off)` counted over its
leaves; only called with `k < nodeLeafCount n`.  A text node is split at
character `off`; a partially covered element is cloned on both sides, as
`Range.extractContents` clones partially selected ancestors. -/
def splitNode : DomNode → Nat → Nat → List DomNode × List DomNode
  | DomNode.text s, _, off => ([DomNode.text (s.take off)], [DomNode.text (s.drop off)])
  | DomNode.elem t b cs, k, off =>
    let p := splitForest cs k off
    ([DomNode.elem t b p.1], [DomNode.elem t b p.2])
/-- Splitting a forest at the boundary point lying in leaf number `k`
(document order) at character offset `off`: the two sides of the DOM
boundary point, with partially covered elements cloned on both sides. -/
def splitForest : List DomNode → Nat → Nat → List DomNode × List DomNode
  | [], _, _ => ([], [])
  | n :: rest, k, off =>
    if k < nodeLeafCount n then
      let p := splitNode n k off
      (p.1, p.2 ++ rest)
    else
      let p := splitForest rest (k - nodeLeafCount n) off
      (n :: p.1, p.2)
end

/-- Model of the committed-highlight wrap in `applySharedAnnotations`:
the range from leaf `si` offset `so` to leaf `ei` offset `eo` is enclosed
in a fresh `mark` element carrying `data-bind-id = bid`.  When the range
lies in a single text node this is what `Range.surroundContents` does;
when it spans several nodes the code falls back to
`extractContents` + `insertNode`, whose effect on the text content is the
same splitting: extract the content between the two boundary points, wrap
it, and reinsert it at the collapsed range position. -/
def wrapRange (cs : List DomNode) (si so ei eo : Nat) (tag : Str) (bid : Str) :
    List DomNode :=
  let q := splitForest cs ei eo
  let p := splitForest q.1 si so
  p.1 ++ [DomNode.elem tag (some bid) p.2] ++ q.2

/-- Induction principle for forests following the shape of the mutual
recursions above. -/
theorem forestInduction {P : List DomNode → Prop}
    (h1 : P [])
    (h2 : ∀ s rest, P rest → P (DomNode.text s :: rest))
    (h3 : ∀ t b cs rest, P cs → P rest → P (DomNode.elem t b cs :: rest)) :
    ∀ cs, P cs := by
  have key : ∀ m, ∀ cs : List DomNode, sizeOf cs = m → P cs := by
    intro m
    induction m using Nat.strong_induction_on with
    | _ m ih =>
      intro cs hsz
      cases cs with
      | nil => exact h1
      | cons a rest =>
        cases a with
        | text s =>
          refine h2 s rest (ih (sizeOf rest) ?_ rest rfl)
          subst hsz; simp
        | elem t b cs' =>
          refine h3 t b cs' rest (ih (sizeOf cs') ?_ cs' rfl) (ih (sizeOf rest) ?_ rest rfl)
          · subst hsz; simp; all_goals omega
          · subst hsz; simp
  exact fun cs => key (sizeOf cs) cs rfl

/-- Model of `findTextInDOM`'s first walker: visit the text nodes in
document order and return a range inside the first node whose own data
contains the search text (`text.indexOf(searchText)`), together with the
node's index in the walk. -/
def fastScan : List Str → Str → Nat → Option (Nat × Nat × Nat × Nat)
  | [], _, _ => none
  | node :: rest, t, idx =>
    match firstIndex? node t with
    | some j => some (idx, j, idx, j + t.length)
    | none => fastScan rest t (idx + 1)

/-- Model of `findTextInDOM`'s second walker: accumulate node lengths
until the node/offset pair containing `searchIndex` and the pair
containing `searchIndex + L` are both found.  `startAcc` carries the
already-found start pair, `charCount` the running offset, `idx` the node
index; exactly the JS loop, including that the end test runs in the same
iteration that may set the start. -/
def slowWalk (searchIndex L : Nat) :
    List Str → Nat → Nat → Option (Nat × Nat) → Option (Nat × Nat × Nat × Nat)
  | [], _, _, _ => none
  | node :: rest, charCount, idx, startAcc =>
    let nodeLength := node.length
    let startAcc' := match startAcc with
      | none =>
        if charCount + nodeLength > searchIndex then some (idx, searchIndex - charCount)
        else none
      | some p => some p
    match startAcc' with
    | some p =>
      if charCount + nodeLength ≥ searchIndex + L then
        some (p.1, p.2, idx, searchIndex + L - charCount)
      else slowWalk searchIndex L rest (charCount + nodeLength) (idx + 1) (some p)
    | none => slowWalk searchIndex L rest (charCount + nodeLength) (idx + 1) none

/-- Model of the Viewer's `findTextInDOM`, the anchor resolver, acting on
the document-order sequence of text leaves.  Fast path: first text node
whose own data contains the text.  Fallback: index of the first
occurrence in the flattened text (`fullText.indexOf`), then a re-walk
locating the two boundary node/offset pairs.  Returns
`(startLeaf, startOffset, endLeaf, endOffset)` or `none` (NOT_FOUND). -/
def findTextInDOM (leaves : List Str) (searchText : Str) :
    Option (Nat × Nat × Nat × Nat) :=
  match fastScan leaves searchText 0 with
  | some r => some r
  | none =>
    match firstIndex? leaves.flatten searchText with
    | none => none
    | some searchIndex => slowWalk searchIndex searchText.length leaves 0 0 none

/-- The text covered by a DOM range with boundary points
`(si, so)`–`(ei, eo)` over a leaf sequence (`range.toString()`). -/
def rangeText : List Str → Nat → Nat → Nat → Nat → Str
  | [], _, _, _, _ => []
  | node :: _, 0, so, 0, eo => (node.drop so).take (eo - so)
  | node :: rest, 0, so, ei + 1, eo => node.drop so ++ rangeText rest 0 0 ei eo
  | _ :: rest, si + 1, so, ei + 1, eo => rangeText rest si so ei eo
  | _ :: _, _ + 1, _, 0, _ => []

/-- Flattened-text position of the boundary point at leaf `i`,
character offset `off`. -/
def flatPos (leaves : List Str) (i off : Nat) : Nat :=
  ((leaves.take i).flatten).length + off

/-- Index of the first leaf whose own data contains `t`. -/
def firstContainingLeaf : List Str → Str → Option Nat
  | [], _ => none
  | leaf :: rest, t =>
    if occursIn t leaf then some 0 else (firstContainingLeaf rest t).map (· + 1)


/-- Annotation kind (`AnnotationType` in the ui types: DELETION or
COMMENT). -/
inductive AnnotationType where
  | deletion
  | comment
deriving Repr, DecidableEq

/-- Opaque fast-path anchor hint captured from web-highlighter's live
selection (the `startMeta`/`endMeta` payload); never interpreted by the
modelled code, only stored or dropped. -/
structure MetaHint where
  parentTagName : Str
  parentIndex : Nat
  textOffset : Nat
deriving Repr, DecidableEq

/-- The Annotation record, with the field names of the object literals
built in `createAnnotationFromSource` and `handleCodeBlockAnnotate`
(note: the creation-time field is spelled `createdA` in the source). -/
structure Annotation where
  id : Str
  blockId : Str
  startOffset : Nat
  endOffset : Nat
  type : AnnotationType
  text : Option Str
  originalText : Str
  createdA : Nat
  author : Str
  startMeta : Option MetaHint
  endMeta : Option MetaHint
deriving Repr, DecidableEq

/-- The keys of the object literal built in `createAnnotationFromSource`
(Viewer), in source order. -/
def annotationLiteralKeys : List String :=
  ["id", "blockId", "startOffset", "endOffset", "type", "text",
   "originalText", "createdA", "author", "startMeta", "endMeta"]

/-- The keys of the object literal built in `handleCodeBlockAnnotate`
(Viewer), in source order. -/
def codeBlockLiteralKeys : List String :=
  ["id", "blockId", "startOffset", "endOffset", "type", "text",
   "originalText", "createdA", "author"]

/-- A web-highlighter selection source as consumed by the CREATE handler:
its id, the selected text, and the live anchor hints. -/
structure HlSource where
  id : Str
  text : Str
  startMeta : Option MetaHint
  endMeta : Option MetaHint
deriving Repr, DecidableEq

/-- The block-element hit of the `parentElement` walk in
`createAnnotationFromSource`: the `data-block-id` value and the block's
`textContent`. -/
structure BlockHit where
  blockId : Str
  blockText : Str
deriving Repr, DecidableEq

/-- Model of the Viewer's `createAnnotationFromSource`.  `blockInfo` is
the outcome of the DOM walk from the highlight's first element up to a
`data-block-id` ancestor (`none` when no dom or no such ancestor, leaving
`blockId = ''` and `startOffset = 0`).  The start offset is the length of
`blockText.split(source.text)[0]`, i.e. of the prefix before the first
occurrence of the selected text.  `now` is `Date.now()` and `ident` the
per-device identity. -/
def createAnnotationFromSource (blockInfo : Option BlockHit) (source : HlSource )
    (ty : AnnotationType ) (text : Option Str) (now : Nat) (ident : Str) : Annotation :=
  let blockId := match blockInfo with
    | some hit => hit.blockId
    | none => []
  let startOffset := match blockInfo with
    | some hit => (splitHead hit.blockText source.text).length
    | none => 0
  { id := source.id
    blockId := blockId
    startOffset := startOffset
    endOffset := startOffset + source.text.length
    type := ty
    text := text
    originalText := source.text
    createdA := now
    author := ident
    startMeta := source.startMeta
    endMeta := source.endMeta }

/-- Decimal digit character for a value below ten. -/
def digitChar : Nat → Char
  | 0 => '0' | 1 => '1' | 2 => '2' | 3 => '3' | 4 => '4'
  | 5 => '5' | 6 => '6' | 7 => '7' | 8 => '8' | _ => '9'

/-- Decimal representation of a natural number, most significant digit
first. -/
def natToDigits (n : Nat) : Str :=
  if _h : n < 10 then [digitChar n]
  else natToDigits (n / 10) ++ [digitChar (n % 10)]
decreasing_by
  exact Nat.div_lt_self (by omega) (by omega)

/-- Model of the Viewer's `handleCodeBlockAnnotate` annotation literal:
the synthesized whole-code-block commit.  `codeText` is the code
element's `textContent`; the annotation covers `[0, codeText.length)`
with `originalText = codeText`, its id is `codeblock-` plus the
timestamp, and it carries no anchor hints. -/
def handleCodeBlockAnnotate (blockId : Str) (codeText : Str) (ty : AnnotationType )
    (text : Option Str) (now : Nat) (ident : Str) : Annotation :=
  { id := "codeblock-".data ++ natToDigits now
    blockId := blockId
    startOffset := 0
    endOffset := codeText.length
    type := ty
    text := text
    originalText := codeText
    createdA := now
    author := ident
    startMeta := none
    endMeta := none }

/-- The per-device identity storage cell
(`storage.getItem('plannotator-identity')`). -/
structure Storage where
  item : Option Str
deriving Repr, DecidableEq

/-- Model of `generateIdentity` (identity.ts): the generator draws an
adjective and a noun (modelled as inputs, the library call being random)
and formats them as adjective-noun-tater. -/
def generateIdentity (adjective noun : Str) : Str :=
  adjective ++ ['-'] ++ noun ++ "-tater".data

/-- Model of `getIdentity` (identity.ts): return the stored identity, or
lazily generate, persist and return one. -/
def getIdentity (adjective noun : Str) (s : Storage) : Str × Storage :=
  match s.item with
  | some stored => (stored, s)
  | none =>
    let identity := generateIdentity adjective noun
    (identity, { item := some identity })

/-- The editor mode consulted by the CREATE handler
(`modeRef.current === 'redline'`). -/
inductive EditorMode where
  | select
  | redline
deriving Repr, DecidableEq

/-- The selection-lifecycle state of the Viewer: the single pending
source ref (`pendingSourceRef`), the toolbar anchor (`toolbarState`),
and the ids of the currently wrapped web-highlighter marks. -/
structure SelState where
  pendingSource : Option HlSource
  toolbar : Option HlSource
  webMarks : List Str
deriving Repr, DecidableEq

/-- Model of the Highlighter CREATE event handling: web-highlighter has
already wrapped the new selection (its id joins the marks), then the
handler removes a previous pending highlight if one exists, and either
auto-commits a deletion (redline mode) or records the source as pending
and shows the toolbar (selection mode).  Returns the new state and the
annotation committed by the event, if any. -/
def onCreateEvent (mode : EditorMode) (blockInfo : Option BlockHit) (now : Nat)
    (ident : Str) (s : SelState ) (source : HlSource ) : SelState × Option Annotation :=
  let marks0 := source.id :: s.webMarks
  let marks1 := match s.pendingSource with
    | some p => marks0.erase p.id
    | none => marks0
  match mode with
  | EditorMode.redline =>
    ({ pendingSource := none, toolbar := s.toolbar, webMarks := marks1 },
      some (createAnnotationFromSource blockInfo source AnnotationType.deletion none now ident))
  | EditorMode.select =>
    ({ pendingSource := some source, toolbar := some source, webMarks := marks1 }, none)

/-- Model of the Viewer's `handleAnnotate`: explicit classification of the
toolbar's source commits it (pending and toolbar are cleared). -/
def handleAnnotate (blockInfo : Option BlockHit) (now : Nat) (ident : Str)
    (s : SelState ) (ty : AnnotationType ) (text : Option Str) : SelState × Option Annotation :=
  match s.toolbar with
  | none => (s, none)
  | some source =>
    ({ pendingSource := none, toolbar := none, webMarks := s.webMarks },
      some (createAnnotationFromSource blockInfo source ty text now ident))

/-- Model of the Viewer's `handleToolbarClose`: the pending highlight is
removed and the pending/toolbar refs cleared. -/
def handleToolbarClose (s : SelState ) : SelState :=
  match s.toolbar with
  | none => { s with pendingSource := none, toolbar := none }
  | some source =>
    { pendingSource := none, toolbar := none, webMarks := s.webMarks.erase source.id }

/-- The Viewer state seen by `applySharedAnnotations` and the removal
handles: the web-highlighter registry (ids answering `getDoms`), the
container's DOM forest, and the warnings logged so far. -/
structure ViewerState where
  webMarks : List Str
  dom : List DomNode
  warnings : List Str

/-- The wrapper tag used for restored highlights. -/
def markTag : Str := "mark".data

/-- Model of one iteration of `applySharedAnnotations`: skip if the id
answers `getDoms` or a `[data-bind-id]` query (already represented in
either index); otherwise resolve the captured text, warn and continue on
NOT_FOUND, or wrap the found range in a `mark` with
`data-bind-id = ann.id`. -/
def applyOne (s : ViewerState ) (ann : Annotation ) : ViewerState :=
  if ann.id ∈ s.webMarks then s
  else if hasBindId ann.id s.dom then s
  else
    match findTextInDOM (textLeaves s.dom) ann.originalText with
    | none => { s with warnings := s.warnings ++ [ann.id] }
    | some r =>
      { s with dom := wrapRange s.dom r.1 r.2.1 r.2.2.1 r.2.2.2 markTag ann.id }

/-- Model of the Viewer's `applySharedAnnotations`: the decoded batch is
applied in order, one annotation at a time. -/
def applySharedAnnotations (s : ViewerState ) (anns : List Annotation ) : ViewerState :=
  anns.foldl applyOne s

/-- Model of the Viewer's `removeHighlight`: drop the id from the
web-highlighter registry (`highlighter.remove`) and unwrap the first
`[data-bind-id]` match, preserving its children in place. -/
def removeHighlight (s : ViewerState ) (id : Str) : ViewerState :=
  { s with webMarks := s.webMarks.erase id, dom := unwrapFirst id s.dom }

/-- Model of the Viewer's `clearAllHighlights`: every highlight wrapper
is unwrapped, its children preserved in place; no wrapped mark remains. -/
def clearAllHighlights (s : ViewerState ) : ViewerState :=
  { webMarks := [], dom := unwrapAll s.dom, warnings := s.warnings }

/-- Modelled from the spec: the on-the-wire annotation record of the
share codec (the `payload.a` entries consumed by `fromShareable` in
`loadFromHash`; `packages/ui/utils/sharing.ts` is not in src/).  Per the
spec, it carries the semantic fields (id, blockId, offsets as originally
captured, type, comment text, originalText, author) and drops the
optional anchor hints `startMeta`/`endMeta` as a size optimization. -/
structure Shareable where
  id : Str
  blockId : Str
  startOffset : Nat
  endOffset : Nat
  type : AnnotationType
  text : Option Str
  originalText : Str
  createdA : Nat
  author : Str
deriving Repr, DecidableEq

/-- Modelled from the spec: `toShareable`, the encode-side projection of
an annotation onto its wire record — every semantic field is kept
verbatim, only the anchor hints are dropped. -/
def toShareable (a : Annotation ) : Shareable :=
  { id := a.id
    blockId := a.blockId
    startOffset := a.startOffset
    endOffset := a.endOffset
    type := a.type
    text := a.text
    originalText := a.originalText
    createdA := a.createdA
    author := a.author }

/-- Modelled from the spec: `fromShareable` as used by `loadFromHash`
(useSharing.ts): wire records become full annotations whose anchor hints
are absent, decode-side restoration relying on the resolver alone. -/
def fromShareable (sa : Shareable) : Annotation :=
  { id := sa.id
    blockId := sa.blockId
    startOffset := sa.startOffset
    endOffset := sa.endOffset
    type := sa.type
    text := sa.text
    originalText := sa.originalText
    createdA := sa.createdA
    author := sa.author
    startMeta := none
    endMeta := none }

/-- Modelled from the spec: the decoded share payload consumed by
`loadFromHash`: the plan markdown (`payload.p`) and the wire annotation
records (`payload.a`). -/
structure SharePayload where
  p : Str
  a : List Shareable
deriving Repr, DecidableEq

/-- Digit predicate used by the transport parser. -/
def isDigitCh (c : Char) : Bool := '0' ≤ c && c ≤ '9'

/-- Numeric value of a decimal digit character. -/
def digitVal (c : Char) : Nat := c.toNat - 48

/-- Value of a most-significant-first decimal digit string. -/
def digitsToNat (s : Str) : Nat := s.foldl (fun a c => a * 10 + digitVal c) 0

/-- Modelled from the spec: transport primitive writing a number as its
decimal digits followed by a colon terminator. -/
def encNat (n : Nat) : Str := natToDigits n ++ [':']

/-- Modelled from the spec: transport primitive writing a string as its
length followed by its raw characters, so that decode is unambiguous for
arbitrary content. -/
def encStr (s : Str) : Str := encNat s.length ++ s

/-- Modelled from the spec: transport primitive for the optional comment
body: an absence/presence flag, then the string when present. -/
def encOptStr : Option Str → Str
  | none => ['0']
  | some s => '1' :: encStr s

/-- Modelled from the spec: transport letter for the annotation type. -/
def encType : AnnotationType → Str
  | AnnotationType.deletion => ['d']
  | AnnotationType.comment => ['c']

/-- Modelled from the spec: wire form of one annotation record, its
fields in declaration order. -/
def encShareable (sa : Shareable) : Str :=
  encStr sa.id ++ encStr sa.blockId ++ encNat sa.startOffset ++
    encNat sa.endOffset ++ encType sa.type ++ encOptStr sa.text ++
    encStr sa.originalText ++ encNat sa.createdA ++ encStr sa.author

/-- Modelled from the spec: ShareCodec.encode — a schema version marker,
the document, then the counted annotation records.  (The character-level
armoring into URL-fragment-safe bytes is a bijective layer below this
model and is not consulted by any claim.) -/
def encodeShare (d : Str) (anns : List Annotation ) : Str :=
  let recs := anns.map toShareable
  encNat 1 ++ encStr d ++ encNat recs.length ++ (recs.map encShareable).flatten

/-- Transport parser for `encNat`: a nonempty digit run, then a colon. -/
def decNat (s : Str) : Option (Nat × Str) :=
  let ds := s.takeWhile isDigitCh
  match s.dropWhile isDigitCh with
  | ':' :: r => if ds = [] then none else some (digitsToNat ds, r)
  | _ => none

/-- Transport parser for `encStr`: a length, then that many characters. -/
def decStr (s : Str) : Option (Str × Str) :=
  match decNat s with
  | none => none
  | some (n, r) => if n ≤ r.length then some (r.take n, r.drop n) else none

/-- Transport parser for `encOptStr`. -/
def decOptStr (s : Str) : Option (Option Str × Str) :=
  match s with
  | '0' :: r => some (none, r)
  | '1' :: r =>
    match decStr r with
    | none => none
    | some (v, r2) => some (some v, r2)
  | _ => none

/-- Transport parser for `encType`. -/
def decType (s : Str) : Option (AnnotationType × Str) :=
  match s with
  | 'd' :: r => some (AnnotationType.deletion, r)
  | 'c' :: r => some (AnnotationType.comment, r)
  | _ => none

/-- Transport parser for one annotation record. -/
def decShareable (s : Str) : Option (Shareable × Str) :=
  match decStr s with
  | none => none
  | some (id, s1) =>
  match decStr s1 with
  | none => none
  | some (blockId, s2) =>
  match decNat s2 with
  | none => none
  | some (startOffset, s3) =>
  match decNat s3 with
  | none => none
  | some (endOffset, s4) =>
  match decType s4 with
  | none => none
  | some (ty, s5) =>
  match decOptStr s5 with
  | none => none
  | some (text, s6) =>
  match decStr s6 with
  | none => none
  | some (originalText, s7) =>
  match decNat s7 with
  | none => none
  | some (createdA, s8) =>
  match decStr s8 with
  | none => none
  | some (author, s9) =>
    some ({ id := id, blockId := blockId, startOffset := startOffset,
            endOffset := endOffset, type := ty, text := text,
            originalText := originalText, createdA := createdA,
            author := author }, s9)

/-- Transport parser for a counted list of annotation records. -/
def decShareList (n : Nat) (s : Str) : Option (List Shareable × Str) :=
  match n with
  | 0 => some ([], s)
  | m + 1 =>
    match decShareable s with
    | none => none
    | some (sa, r) =>
      match decShareList m r with
      | none => none
      | some (sas, r2) => some (sa :: sas, r2)

/-- Modelled from the spec: ShareCodec.decode — INVALID_PAYLOAD (none) on
a malformed or truncated string or an unsupported schema version,
otherwise the full payload; decode fails closed, never yielding a
partially populated payload. -/
def decodeShare (s : Str) : Option SharePayload :=
  match decNat s with
  | none => none
  | some (v, s1) =>
    if v = 1 then
      match decStr s1 with
      | none => none
      | some (d, s2) =>
        match decNat s2 with
        | none => none
        | some (n, s3) =>
          match decShareList n s3 with
          | none => none
          | some (sas, rest) =>
            if rest = [] then some { p := d, a := sas } else none
    else none

/-- Model of `loadFromHash` (useSharing.ts): decode the hash; on success
the plan markdown is set to `payload.p` and the annotation set to
`fromShareable` of `payload.a`; on failure both are left unchanged. -/
def loadFromHash (hash : Str) (markdown : Str) (anns : List Annotation ) :
    Str × List Annotation :=
  match decodeShare hash with
  | some payload => (payload.p, payload.a.map fromShareable)
  | none => (markdown, anns)


/-- Sample annotation fixture used by concrete witnesses. -/
def sampleAnn : Annotation :=
  { id := "a1".data, blockId := [], startOffset := 0, endOffset := 2,
    type := AnnotationType.deletion, text := none, originalText := "ab".data,
    createdA := 0, author := [], startMeta := none, endMeta := none }

/-- Sample Viewer state fixture with one text node and no marks. -/
def sampleState : ViewerState := ⟨[], [DomNode.text ("xyz".data)], []⟩

/-- Sample Viewer state fixture whose registry already holds the sample
annotation's id. -/
def sampleMarked : ViewerState := ⟨["a1".data], [], []⟩

theorem firstIndex_sound {s pat : Str} {i : Nat} (h : firstIndex? s pat = some i) :
    i ≤ s.length ∧ pat <+: s.drop i := by
  induction s generalizing i with
  | nil =>
    rw [firstIndex?] at h
    by_cases hp : pat = ([] : Str)
    · simp [hp] at h
      subst hp
      simp [← h]
    · simp [hp] at h
  | cons a tl ih =>
    rw [firstIndex?] at h
    by_cases hp : pat.isPrefixOf (a :: tl) = true
    · simp [hp] at h
      refine ⟨by omega, ?_⟩
      rw [← h]
      exact List.isPrefixOf_iff_prefix.mp hp
    · simp [hp] at h
      obtain ⟨j, hj, rfl⟩ := h
      obtain ⟨h1, h2⟩ := ih hj
      exact ⟨by simp; omega, by simpa using h2⟩

theorem firstIndex_none {s pat : Str} (h : firstIndex? s pat = none) :
    ∀ i, ¬ pat <+: s.drop i := by
  induction s with
  | nil =>
    rw [firstIndex?] at h
    by_cases hp : pat = ([] : Str)
    · simp [hp] at h
    · intro i hpre
      simp at hpre
      exact hp hpre
  | cons a tl ih =>
    rw [firstIndex?] at h
    by_cases hp : pat.isPrefixOf (a :: tl) = true
    · simp [hp] at h
    · simp [hp] at h
      intro i
      cases i with
      | zero =>
        intro hpre
        exact hp (List.isPrefixOf_iff_prefix.mpr (by simpa using hpre))
      | succ j =>
        simpa using ih h j

theorem firstIndex_min {s pat : Str} {i : Nat} (h : firstIndex? s pat = some i) :
    ∀ j, j < i → ¬ pat <+: s.drop j := by
  induction s generalizing i with
  | nil =>
    rw [firstIndex?] at h
    by_cases hp : pat = ([] : Str)
    · simp [hp] at h
      intro j hj
      exact absurd hj (by omega)
    · simp [hp] at h
  | cons a tl ih =>
    rw [firstIndex?] at h
    by_cases hp : pat.isPrefixOf (a :: tl) = true
    · simp [hp] at h
      omega
    · simp [hp] at h
      obtain ⟨k, hk, rfl⟩ := h
      intro j hj
      cases j with
      | zero =>
        intro hpre
        exact hp (List.isPrefixOf_iff_prefix.mpr (by simpa using hpre))
      | succ m =>
        simpa using ih hk m (by omega)

theorem occursIn_iff {pat s : Str} : occursIn pat s = true ↔ ∃ i, pat <+: s.drop i := by
  constructor
  · intro h
    rw [occursIn, Option.isSome_iff_exists] at h
    obtain ⟨i, hi⟩ := h
    exact ⟨i, (firstIndex_sound hi).2⟩
  · intro ⟨i, hi⟩
    rw [occursIn, Option.isSome_iff_exists]
    cases hfi : firstIndex? s pat with
    | none => exact absurd hi (firstIndex_none hfi i)
    | some j => exact ⟨j, rfl⟩

theorem firstIndex_take {s pat : Str} {i : Nat} (h : firstIndex? s pat = some i) :
    (s.drop i).take pat.length = pat := by
  exact (List.prefix_iff_eq_take.mp (firstIndex_sound h).2).symm

theorem firstIndex_isSome_of_occurs {pat s : Str} (h : occursIn pat s = true) :
    ∃ i, firstIndex? s pat = some i := by
  rw [occursIn, Option.isSome_iff_exists] at h
  exact h

theorem textLeaves_append (a b : List DomNode) :
    textLeaves (a ++ b) = textLeaves a ++ textLeaves b := by
  induction a with
  | nil => simp [textLeaves]
  | cons n rest ih => simp [textLeaves, ih]

theorem unwrapAll_leaves (cs : List DomNode) :
    textLeaves (unwrapAll cs) = textLeaves cs := by
  induction cs using forestInduction with
  | h1 => simp [unwrapAll]
  | h2 s rest ih =>
    simp [unwrapAll, unwrapAllNode, textLeaves_append, textLeaves, nodeLeaves, ih]
  | h3 t b cs rest ihc ihr =>
    by_cases hb : b.isSome
    · simp [unwrapAll, unwrapAllNode, hb, textLeaves_append, textLeaves, nodeLeaves, ihc, ihr]
    · simp [unwrapAll, unwrapAllNode, hb, textLeaves_append, textLeaves, nodeLeaves, ihc, ihr]

theorem unwrapFirst_leaves (bid : Str) (cs : List DomNode) :
    textLeaves (unwrapFirst bid cs) = textLeaves cs := by
  induction cs using forestInduction with
  | h1 => simp [unwrapFirst]
  | h2 s rest ih =>
    simp [unwrapFirst, hasBindIdNode, textLeaves, nodeLeaves, ih]
  | h3 t b cs rest ihc ihr =>
    by_cases hn : hasBindIdNode bid (DomNode.elem t b cs) = true
    · by_cases hb : b = some bid
      · subst hb
        simp [unwrapFirst, unwrapFirstNode, hasBindIdNode, textLeaves_append, textLeaves,
          nodeLeaves]
      · simp [unwrapFirst, hn, unwrapFirstNode, hb, textLeaves_append, textLeaves, nodeLeaves, ihc]
    · simp [unwrapFirst, hn, textLeaves, nodeLeaves, ihr]

theorem splitForest_flatten (cs : List DomNode) :
    ∀ k off, flattenForest (splitForest cs k off).1 ++ flattenForest (splitForest cs k off).2 =
      flattenForest cs := by
  induction cs using forestInduction with
  | h1 => intro k off; simp [splitForest, flattenForest, textLeaves]
  | h2 s rest ih =>
    intro k off
    by_cases hk : k < nodeLeafCount (DomNode.text s)
    · simp only [splitForest, hk, if_pos, splitNode]
      simp only [flattenForest, textLeaves, nodeLeaves, textLeaves_append, List.flatten_cons,
        List.flatten_nil, List.append_nil, List.flatten_append]
      rw [← List.append_assoc, List.take_append_drop]
      simp
    · simp only [splitForest, hk, if_neg, not_false_iff]
      have := ih (k - nodeLeafCount (DomNode.text s)) off
      simp only [flattenForest, textLeaves, nodeLeaves, textLeaves_append] at this ⊢
      simp [this]
  | h3 t b cs rest ihc ihr =>
    intro k off
    by_cases hk : k < nodeLeafCount (DomNode.elem t b cs)
    · simp only [splitForest, hk, if_pos, splitNode]
      have := ihc k off
      simp only [flattenForest, textLeaves, nodeLeaves, textLeaves_append, List.flatten_append] at this ⊢
      simp [← this]
    · simp only [splitForest, hk, if_neg, not_false_iff]
      have := ihr (k - nodeLeafCount (DomNode.elem t b cs)) off
      simp only [flattenForest, textLeaves, nodeLeaves, textLeaves_append, List.flatten_append] at this ⊢
      simp [this]

theorem wrapRange_flatten (cs : List DomNode) (si so ei eo : Nat) (tag bid : Str) :
    flattenForest (wrapRange cs si so ei eo tag bid) = flattenForest cs := by
  rw [wrapRange]
  have h1 := splitForest_flatten cs ei eo
  have h2 := splitForest_flatten (splitForest cs ei eo).1 si so
  simp only [flattenForest, textLeaves_append, List.flatten_append, textLeaves, nodeLeaves,
    List.flatten_cons, List.flatten_nil, List.append_nil] at h1 h2 ⊢
  rw [h2, h1]

theorem hasBindId_append (x : Str) (a b : List DomNode) :
    hasBindId x (a ++ b) = (hasBindId x a || hasBindId x b) := by
  induction a with
  | nil => simp [hasBindId]
  | cons n rest ih => simp [hasBindId, ih, Bool.or_assoc]

theorem splitForest_hasBindId (x : Str) (cs : List DomNode) :
    ∀ k off, hasBindId x cs = false →
      hasBindId x (splitForest cs k off).1 = false ∧
        hasBindId x (splitForest cs k off).2 = false := by
  induction cs using forestInduction with
  | h1 => intro k off _; simp [splitForest, hasBindId]
  | h2 s rest ih =>
    intro k off h
    simp only [hasBindId, hasBindIdNode, Bool.false_or] at h
    by_cases hk : k < nodeLeafCount (DomNode.text s)
    · simp [splitForest, hk, splitNode, hasBindId, hasBindIdNode, h]
    · have := ih (k - nodeLeafCount (DomNode.text s)) off h
      simp [splitForest, hk, hasBindId, hasBindIdNode, this.1, this.2]
  | h3 t b cs rest ihc ihr =>
    intro k off h
    simp only [hasBindId, hasBindIdNode, Bool.or_eq_false_iff] at h
    obtain ⟨⟨hb, hc⟩, hr⟩ := h
    by_cases hk : k < nodeLeafCount (DomNode.elem t b cs)
    · have := ihc k off hc
      simp [splitForest, hk, splitNode, hasBindId, hasBindIdNode, hb, hr, this.1, this.2]
    · have := ihr (k - nodeLeafCount (DomNode.elem t b cs)) off hr
      simp [splitForest, hk, hasBindId, hasBindIdNode, hb, hc, this.1, this.2]

theorem wrapRange_hasBindId_false (x : Str) (cs : List DomNode) (si so ei eo : Nat)
    (tag bid : Str) (hne : x ≠ bid) (h : hasBindId x cs = false) :
    hasBindId x (wrapRange cs si so ei eo tag bid) = false := by
  rw [wrapRange]
  have hq := splitForest_hasBindId x cs ei eo h
  have hp := splitForest_hasBindId x (splitForest cs ei eo).1 si so hq.1
  simp [hasBindId_append, hasBindId, hasBindIdNode, hp.1, hp.2, hq.2]
  intro hc
  exact absurd (congrArg (fun o => o) hc) (by simpa using fun e => hne e.symm)

theorem occurs_flatten_of_mem {t leaf : Str} {leaves : List Str}
    (hm : leaf ∈ leaves) (h : occursIn t leaf = true) :
    occursIn t leaves.flatten = true := by
  induction leaves with
  | nil => simp at hm
  | cons head rest ih =>
    rw [List.mem_cons] at hm
    rcases hm with rfl | hm
    · obtain ⟨i, hi⟩ := firstIndex_isSome_of_occurs h
      obtain ⟨hle, hpre⟩ := firstIndex_sound hi
      rw [occursIn_iff]
      refine ⟨i, ?_⟩
      rw [List.flatten_cons, List.drop_append_of_le_length hle]
      exact hpre.trans (List.prefix_append _ _)
    · have := ih hm
      rw [occursIn_iff] at this ⊢
      obtain ⟨i, hi⟩ := this
      refine ⟨head.length + i, ?_⟩
      rw [List.flatten_cons, List.drop_append]
      exact hi

theorem fastScan_none {t : Str} {leaves : List Str}
    (h : ∀ leaf ∈ leaves, occursIn t leaf = false) :
    ∀ idx, fastScan leaves t idx = none := by
  induction leaves with
  | nil => intro idx; rfl
  | cons head rest ih =>
    intro idx
    have hh : occursIn t head = false := h head (by simp)
    rw [fastScan]
    rw [occursIn] at hh
    cases hfi : firstIndex? head t with
    | none => exact ih (fun leaf hm => h leaf (by simp [hm])) (idx + 1)
    | some j => rw [hfi] at hh; simp at hh

theorem findTextInDOM_none {t : Str} {leaves : List Str}
    (h : occursIn t leaves.flatten = false) :
    findTextInDOM leaves t = none := by
  have hleaf : ∀ leaf ∈ leaves, occursIn t leaf = false := by
    intro leaf hm
    by_cases hl : occursIn t leaf = true
    · exact absurd (occurs_flatten_of_mem hm hl) (by simp [h])
    · simpa using hl
  rw [findTextInDOM, fastScan_none hleaf 0]
  rw [occursIn] at h
  cases hfi : firstIndex? leaves.flatten t with
  | none => rfl
  | some k => rw [hfi] at h; simp at h

theorem applyOne_cases (s : ViewerState ) (a : Annotation ) :
    applyOne s a = s ∨
    applyOne s a = { s with warnings := s.warnings ++ [a.id] } ∨
    ∃ r, findTextInDOM (textLeaves s.dom) a.originalText = some r ∧
      applyOne s a = { s with dom := wrapRange s.dom r.1 r.2.1 r.2.2.1 r.2.2.2 markTag a.id } := by
  rw [applyOne]
  by_cases h1 : a.id ∈ s.webMarks
  · left; simp [h1]
  · by_cases h2 : hasBindId a.id s.dom = true
    · left; simp [h1, h2]
    · cases hf : findTextInDOM (textLeaves s.dom) a.originalText with
      | none => right; left; simp [h1, h2, hf]
      | some r => right; right; exact ⟨r, rfl, by simp [h1, h2, hf]⟩

theorem applyOne_webMarks (s : ViewerState ) (a : Annotation ) :
    (applyOne s a).webMarks = s.webMarks := by
  rcases applyOne_cases s a with h | h | ⟨r, _, h⟩ <;> simp [h]

theorem applyOne_flatten (s : ViewerState ) (a : Annotation ) :
    flattenForest (applyOne s a).dom = flattenForest s.dom := by
  rcases applyOne_cases s a with h | h | ⟨r, _, h⟩ <;> simp [h]
  exact wrapRange_flatten s.dom r.1 r.2.1 r.2.2.1 r.2.2.2 markTag a.id

theorem applyOne_hasBindId_false (s : ViewerState ) (a : Annotation ) (x : Str)
    (hne : x ≠ a.id) (h : hasBindId x s.dom = false) :
    hasBindId x (applyOne s a).dom = false := by
  rcases applyOne_cases s a with hc | hc | ⟨r, _, hc⟩ <;> simp [hc]
  · simpa using h
  · simpa using h
  · simpa using wrapRange_hasBindId_false x s.dom r.1 r.2.1 r.2.2.1 r.2.2.2 markTag a.id hne h

theorem applyOne_skip (s : ViewerState ) (a : Annotation )
    (h : a.id ∈ s.webMarks ∨ hasBindId a.id s.dom = true) : applyOne s a = s := by
  rw [applyOne]
  rcases h with h | h
  · simp [h]
  · simp [h]

theorem applyOne_warn (s : ViewerState ) (a : Annotation )
    (hw : a.id ∉ s.webMarks) (hb : hasBindId a.id s.dom = false)
    (hno : occursIn a.originalText (flattenForest s.dom) = false) :
    applyOne s a = { s with warnings := s.warnings ++ [a.id] } := by
  have hf : findTextInDOM (textLeaves s.dom) a.originalText = none :=
    findTextInDOM_none (by rwa [flattenForest] at hno)
  rw [applyOne]
  simp [hw, hb, hf]

theorem applyOne_warningsFree (wm : List Str) (dom : List DomNode) (ws : List Str)
    (a : Annotation ) :
    applyOne ⟨wm, dom, ws⟩ a =
      { webMarks := (applyOne ⟨wm, dom, []⟩ a).webMarks
        dom := (applyOne ⟨wm, dom, []⟩ a).dom
        warnings := ws ++ (applyOne ⟨wm, dom, []⟩ a).warnings } := by
  rw [applyOne, applyOne]
  by_cases h1 : a.id ∈ wm
  · simp [h1]
  · by_cases h2 : hasBindId a.id dom = true
    · simp [h1, h2]
    · cases hf : findTextInDOM (textLeaves dom) a.originalText with
      | none => simp [h1, h2, hf]
      | some r => simp [h1, h2, hf]

theorem applyShared_cons (s : ViewerState ) (a : Annotation ) (l : List Annotation ) :
    applySharedAnnotations s (a :: l) = applySharedAnnotations (applyOne s a) l := rfl

theorem applyShared_warningsFree (anns : List Annotation ) :
    ∀ (wm : List Str) (dom : List DomNode) (ws : List Str),
    applySharedAnnotations ⟨wm, dom, ws⟩ anns =
      { webMarks := (applySharedAnnotations ⟨wm, dom, []⟩ anns).webMarks
        dom := (applySharedAnnotations ⟨wm, dom, []⟩ anns).dom
        warnings := ws ++ (applySharedAnnotations ⟨wm, dom, []⟩ anns).warnings } := by
  induction anns with
  | nil => intro wm dom ws; simp [applySharedAnnotations]
  | cons a rest ih =>
    intro wm dom ws
    rw [applyShared_cons, applyShared_cons]
    cases hr : applyOne ⟨wm, dom, []⟩ a with
    | mk wm1 dom1 ws1 =>
      have step := applyOne_warningsFree wm dom ws a
      rw [hr] at step
      rw [step]
      simp only
      rw [ih wm1 dom1 (ws ++ ws1), ih wm1 dom1 ws1]
      simp

theorem applyShared_insert_warn (ann : Annotation ) (post : List Annotation ) :
    ∀ (pre : List Annotation ) (s : ViewerState ),
      occursIn ann.originalText (flattenForest s.dom) = false →
      ann.id ∉ s.webMarks → hasBindId ann.id s.dom = false →
      ann.id ∉ pre.map (fun a => a.id) →
      (applySharedAnnotations s (pre ++ ann :: post)).webMarks =
        (applySharedAnnotations s (pre ++ post)).webMarks ∧
      (applySharedAnnotations s (pre ++ ann :: post)).dom =
        (applySharedAnnotations s (pre ++ post)).dom ∧
      ann.id ∈ (applySharedAnnotations s (pre ++ ann :: post)).warnings := by
  intro pre
  induction pre with
  | nil =>
    intro s hno hw hb _
    simp only [List.nil_append]
    rw [applyShared_cons, applyOne_warn s ann hw hb hno]
    cases s with
    | mk wm dom ws =>
      simp only
      have h1 := applyShared_warningsFree post wm dom (ws ++ [ann.id])
      have h2 := applyShared_warningsFree post wm dom ws
      refine ⟨?_, ?_, ?_⟩
      · rw [h1, h2]
      · rw [h1, h2]
      · rw [h1]; simp
  | cons p pre' ih =>
    intro s hno hw hb hpre
    have hmap : ann.id ≠ p.id ∧ ann.id ∉ pre'.map (fun a => a.id) := by
      simp only [List.map_cons, List.mem_cons] at hpre
      push_neg at hpre
      exact hpre
    simp only [List.cons_append]
    rw [applyShared_cons, applyShared_cons]
    refine ih (applyOne s p) ?_ ?_ ?_ hmap.2
    · rw [applyOne_flatten]; exact hno
    · rw [applyOne_webMarks]; exact hw
    · exact applyOne_hasBindId_false s p ann.id hmap.1 hb

theorem applyShared_skip_all (anns : List Annotation ) :
    ∀ s : ViewerState ,
      (∀ a ∈ anns, a.id ∈ s.webMarks ∨ hasBindId a.id s.dom = true) →
      applySharedAnnotations s anns = s := by
  induction anns with
  | nil => intro s _; rfl
  | cons a rest ih =>
    intro s h
    rw [applyShared_cons, applyOne_skip s a (h a (by simp))]
    exact ih s (fun b hb => h b (by simp [hb]))

theorem splitHead_spec {s pat : Str} (h : occursIn pat s = true) :
    (s.drop (splitHead s pat).length).take pat.length = pat := by
  obtain ⟨i, hi⟩ := firstIndex_isSome_of_occurs h
  have hlen : (splitHead s pat).length = i := by
    rw [splitHead, hi, List.length_take]
    exact Nat.min_eq_left (firstIndex_sound hi).1
  rw [hlen]
  exact firstIndex_take hi

theorem digitVal_digitChar {d : Nat} (h : d < 10) : digitVal (digitChar d) = d := by
  interval_cases d <;> rfl

theorem isDigitCh_digitChar {d : Nat} (h : d < 10) : isDigitCh (digitChar d) = true := by
  interval_cases d <;> decide

theorem natToDigits_digits (n : Nat) : ∀ c ∈ natToDigits n, isDigitCh c = true := by
  induction n using Nat.strong_induction_on with
  | _ n ih =>
    rw [natToDigits]
    split
    · intro c hc
      simp at hc
      subst hc
      exact isDigitCh_digitChar (by omega)
    · intro c hc
      rw [List.mem_append] at hc
      rcases hc with hc | hc
      · exact ih (n / 10) (Nat.div_lt_self (by omega) (by omega)) c hc
      · simp at hc
        subst hc
        exact isDigitCh_digitChar (Nat.mod_lt _ (by omega))

theorem natToDigits_ne_nil (n : Nat) : natToDigits n ≠ [] := by
  rw [natToDigits]
  split <;> simp

theorem digitsToNat_natToDigits (n : Nat) : digitsToNat (natToDigits n) = n := by
  induction n using Nat.strong_induction_on with
  | _ n ih =>
    rw [natToDigits]
    split
    · next h =>
      simp [digitsToNat, List.foldl_cons, digitVal_digitChar h]
    · next h =>
      have hrec := ih (n / 10) (Nat.div_lt_self (by omega) (by omega))
      simp only [digitsToNat, List.foldl_append, List.foldl_cons, List.foldl_nil]
      rw [digitsToNat] at hrec
      rw [hrec, digitVal_digitChar (Nat.mod_lt _ (by omega))]
      omega

theorem takeWhile_all_append (p : Char → Bool) (l1 l2 : Str) (h : ∀ x ∈ l1, p x = true) :
    (l1 ++ l2).takeWhile p = l1 ++ l2.takeWhile p := by
  induction l1 with
  | nil => simp
  | cons a tl ih =>
    simp only [List.cons_append, List.takeWhile_cons]
    rw [h a (by simp)]
    simp [ih (fun x hx => h x (by simp [hx]))]

theorem dropWhile_all_append (p : Char → Bool) (l1 l2 : Str) (h : ∀ x ∈ l1, p x = true) :
    (l1 ++ l2).dropWhile p = l2.dropWhile p := by
  induction l1 with
  | nil => simp
  | cons a tl ih =>
    simp only [List.cons_append, List.dropWhile_cons]
    rw [h a (by simp)]
    simp [ih (fun x hx => h x (by simp [hx]))]

theorem decNat_enc (n : Nat) (rest : Str) : decNat (encNat n ++ rest) = some (n, rest) := by
  have hdig := natToDigits_digits n
  rw [decNat, encNat]
  have hcolon : isDigitCh ':' = false := by decide
  have e1 : (natToDigits n ++ ':' :: rest).takeWhile isDigitCh = natToDigits n := by
    rw [show natToDigits n ++ ':' :: rest = natToDigits n ++ (':' :: rest) from by simp]
    rw [takeWhile_all_append isDigitCh _ _ hdig]
    simp [List.takeWhile_cons, hcolon]
  have e2 : (natToDigits n ++ ':' :: rest).dropWhile isDigitCh = ':' :: rest := by
    rw [show natToDigits n ++ ':' :: rest = natToDigits n ++ (':' :: rest) from by simp]
    rw [dropWhile_all_append isDigitCh _ _ hdig]
    simp [List.dropWhile_cons, hcolon]
  simp only [List.append_assoc, List.cons_append, List.nil_append] at e1 e2 ⊢
  rw [e1, e2]
  simp [natToDigits_ne_nil n, digitsToNat_natToDigits n]

theorem decStr_enc (s : Str) (rest : Str) : decStr (encStr s ++ rest) = some (s, rest) := by
  rw [decStr, encStr]
  rw [List.append_assoc, decNat_enc s.length (s ++ rest)]
  simp only
  rw [if_pos (by simp)]
  rw [List.take_left, List.drop_left]

theorem decType_enc (ty : AnnotationType ) (rest : Str) :
    decType (encType ty ++ rest) = some (ty, rest) := by
  cases ty <;> rfl

theorem decOptStr_enc (o : Option Str) (rest : Str) :
    decOptStr (encOptStr o ++ rest) = some (o, rest) := by
  cases o with
  | none => rfl
  | some s =>
    rw [encOptStr, List.cons_append, decOptStr, decStr_enc]

theorem decShareable_enc (sa : Shareable) (rest : Str) :
    decShareable (encShareable sa ++ rest) = some (sa, rest) := by
  rw [encShareable]
  simp only [List.append_assoc]
  rw [decShareable]
  rw [decStr_enc]
  simp only
  rw [decStr_enc]
  simp only
  rw [decNat_enc]
  simp only
  rw [decNat_enc]
  simp only
  rw [decType_enc]
  simp only
  rw [decOptStr_enc]
  simp only
  rw [decStr_enc]
  simp only
  rw [decNat_enc]
  simp only
  rw [decStr_enc]

theorem decShareList_enc (l : List Shareable) :
    ∀ rest : Str,
      decShareList l.length ((l.map encShareable).flatten ++ rest) = some (l, rest) := by
  induction l with
  | nil => intro rest; simp [decShareList]
  | cons sa tl ih =>
    intro rest
    simp only [List.length_cons, List.map_cons, List.flatten_cons, List.append_assoc]
    rw [decShareList]
    rw [decShareable_enc]
    simp only
    rw [ih rest]

theorem decodeShare_encodeShare (d : Str) (anns : List Annotation ) :
    decodeShare (encodeShare d anns) = some { p := d, a := anns.map toShareable } := by
  rw [encodeShare, decodeShare]
  simp only [List.append_assoc]
  rw [decNat_enc]
  simp only [if_pos rfl]
  rw [decStr_enc]
  simp only
  have := decShareList_enc (anns.map toShareable) []
  rw [List.append_nil] at this
  rw [List.length_map] at this
  rw [decNat_enc]
  simp only
  rw [List.length_map, this]
  simp

theorem fromShareable_toShareable (a : Annotation ) :
    fromShareable (toShareable a) = { a with startMeta := none, endMeta := none } := rfl

theorem flatPos_cons_zero (x : Str) (l : List Str) (off : Nat) :
    flatPos (x :: l) 0 off = off := by
  simp [flatPos]

theorem flatPos_cons_succ (x : Str) (l : List Str) (i off : Nat) :
    flatPos (x :: l) (i + 1) off = x.length + flatPos l i off := by
  simp [flatPos]
  omega

theorem flatten_drop_flatPos (l : List Str) :
    ∀ i off, i < l.length → off ≤ (l.getD i []).length →
      l.flatten.drop (flatPos l i off) = (l.getD i []).drop off ++ (l.drop (i + 1)).flatten := by
  induction l with
  | nil => intro i off hi _; simp at hi
  | cons x rest ih =>
    intro i off hi hoff
    cases i with
    | zero =>
      rw [flatPos_cons_zero, List.flatten_cons]
      simp only [List.getD_cons_zero] at hoff ⊢
      rw [List.drop_append_of_le_length hoff]
      simp
    | succ i =>
      rw [flatPos_cons_succ, List.flatten_cons, List.drop_append]
      simp only [List.getD_cons_succ, List.drop_succ_cons]
      exact ih i off (by simpa using hi) (by simpa using hoff)

theorem rangeText_eq (l : List Str) :
    ∀ si so ei eo, si ≤ ei → so ≤ (l.getD si []).length → eo ≤ (l.getD ei []).length →
      ei < l.length →
      rangeText l si so ei eo =
        (l.flatten.drop (flatPos l si so)).take (flatPos l ei eo - flatPos l si so) := by
  induction l with
  | nil => intro si so ei eo _ _ _ hei; simp at hei
  | cons x rest ih =>
    intro si so ei eo hsie hso heo hei
    cases si with
    | zero =>
      cases ei with
      | zero =>
        rw [rangeText, flatPos_cons_zero, flatPos_cons_zero, List.flatten_cons]
        simp only [List.getD_cons_zero] at hso heo
        rw [List.drop_append_of_le_length hso]
        rw [List.take_append_of_le_length (by simp; omega)]
      | succ e =>
        rw [rangeText, flatPos_cons_zero, flatPos_cons_succ, List.flatten_cons]
        simp only [List.getD_cons_zero] at hso
        simp only [List.getD_cons_succ] at heo
        rw [List.drop_append_of_le_length hso]
        rw [List.take_append_eq_append_take]
        have hlen : (x.drop so).length = x.length - so := by simp
        rw [List.take_of_length_le (by omega)]
        have harith : x.length + flatPos rest e eo - so - (x.drop so).length =
            flatPos rest e eo := by
          simp only [hlen]
          omega
        rw [harith]
        have := ih 0 0 e eo (by omega) (by simp) (by simpa using heo) (by simpa using hei)
        rw [this]
        simp [flatPos]
    | succ s =>
      cases ei with
      | zero => omega
      | succ e =>
        rw [rangeText, flatPos_cons_succ, flatPos_cons_succ, List.flatten_cons, List.drop_append]
        have := ih s so e eo (by omega) (by simpa using hso) (by simpa using heo)
          (by simpa using hei)
        rw [this]
        have harith : x.length + flatPos rest e eo - (x.length + flatPos rest s so) =
            flatPos rest e eo - flatPos rest s so := by omega
        rw [harith]

theorem firstContainingLeaf_some {t : Str} {leaves : List Str} {i : Nat}
    (h : firstContainingLeaf leaves t = some i) :
    i < leaves.length ∧ occursIn t (leaves.getD i []) = true ∧
      ∀ j, j < i → occursIn t (leaves.getD j []) = false := by
  induction leaves generalizing i with
  | nil => simp [firstContainingLeaf] at h
  | cons leaf rest ih =>
    rw [firstContainingLeaf] at h
    by_cases ho : occursIn t leaf = true
    · simp [ho] at h
      subst h
      exact ⟨by simp, by simpa using ho, fun j hj => absurd hj (by omega)⟩
    · simp [ho] at h
      obtain ⟨i', hi', rfl⟩ := h
      obtain ⟨h1, h2, h3⟩ := ih hi'
      refine ⟨by simp; omega, by simpa using h2, ?_⟩
      intro j hj
      cases j with
      | zero => simpa using ho
      | succ j' => simpa using h3 j' (by omega)

theorem firstContainingLeaf_none {t : Str} {leaves : List Str}
    (h : firstContainingLeaf leaves t = none) :
    ∀ leaf ∈ leaves, occursIn t leaf = false := by
  induction leaves with
  | nil => simp
  | cons leaf rest ih =>
    rw [firstContainingLeaf] at h
    by_cases ho : occursIn t leaf = true
    · simp [ho] at h
    · simp [ho] at h
      intro x hx
      rcases List.mem_cons.mp hx with rfl | hx
      · simpa using ho
      · exact ih h x hx

theorem fastScan_some {t : Str} {leaves : List Str} {i : Nat}
    (h : firstContainingLeaf leaves t = some i) :
    ∃ j, firstIndex? (leaves.getD i []) t = some j ∧
      ∀ idx, fastScan leaves t idx = some (idx + i, j, idx + i, j + t.length) := by
  induction leaves generalizing i with
  | nil => simp [firstContainingLeaf] at h
  | cons leaf rest ih =>
    rw [firstContainingLeaf] at h
    by_cases ho : occursIn t leaf = true
    · simp [ho] at h
      subst h
      obtain ⟨j, hj⟩ := firstIndex_isSome_of_occurs ho
      refine ⟨j, by simpa using hj, ?_⟩
      intro idx
      rw [fastScan, hj]
      simp
    · simp [ho] at h
      obtain ⟨i', hi', rfl⟩ := h
      obtain ⟨j, hj, hscan⟩ := ih hi'
      refine ⟨j, by simpa using hj, ?_⟩
      intro idx
      rw [fastScan]
      rw [occursIn] at ho
      cases hfi : firstIndex? leaf t with
      | none =>
        rw [hscan (idx + 1)]
        have harr : idx + 1 + i' = idx + (i' + 1) := by omega
        rw [harr]
      | some jj => rw [hfi] at ho; simp at ho

theorem slowWalk_some (k L si so : Nat) :
    ∀ (leaves : List Str) (c idx : Nat),
      c < k + L → k + L ≤ c + leaves.flatten.length →
      ∃ ei eo,
        slowWalk k L leaves c idx (some (si, so)) = some (si, so, ei, eo) ∧
        idx ≤ ei ∧ ei - idx < leaves.length ∧
        eo ≤ (leaves.getD (ei - idx) []).length ∧
        c + ((leaves.take (ei - idx)).flatten).length + eo = k + L := by
  intro leaves
  induction leaves with
  | nil =>
    intro c idx h1 h2
    simp at h2
    omega
  | cons node rest ih =>
    intro c idx h1 h2
    rw [slowWalk]
    simp only
    by_cases hend : c + node.length ≥ k + L
    · rw [if_pos hend]
      refine ⟨idx, k + L - c, rfl, by omega, by simp, ?_, ?_⟩
      · simp
        omega
      · simp
        omega
    · rw [if_neg hend]
      have hb : k + L ≤ c + node.length + rest.flatten.length := by
        rw [List.flatten_cons, List.length_append] at h2
        omega
      obtain ⟨ei, eo, hw, h3, h4, h5, h6⟩ :=
        ih (c + node.length) (idx + 1) (by omega) hb
      refine ⟨ei, eo, hw, by omega, ?_, ?_, ?_⟩
      · simp
        omega
      · have : ei - idx = (ei - (idx + 1)) + 1 := by omega
        rw [this]
        simpa using h5
      · have : ei - idx = (ei - (idx + 1)) + 1 := by omega
        rw [this]
        simp only [List.take_succ_cons, List.flatten_cons, List.length_append]
        omega

theorem slowWalk_cons_none (k L : Nat) (node : Str) (rest : List Str) (c idx : Nat) :
    slowWalk k L (node :: rest) c idx none =
      if c + node.length > k then
        (if c + node.length ≥ k + L then some (idx, k - c, idx, k + L - c)
          else slowWalk k L rest (c + node.length) (idx + 1) (some (idx, k - c)))
      else slowWalk k L rest (c + node.length) (idx + 1) none := by
  rw [slowWalk]
  by_cases hstart : c + node.length > k
  · simp [hstart]
  · simp [hstart]

theorem slowWalk_none (k L : Nat) (hL : 1 ≤ L) :
    ∀ (leaves : List Str) (c idx : Nat),
      c ≤ k → k + L ≤ c + leaves.flatten.length →
      ∃ si so ei eo,
        slowWalk k L leaves c idx none = some (si, so, ei, eo) ∧
        idx ≤ si ∧ si ≤ ei ∧ si - idx < leaves.length ∧ ei - idx < leaves.length ∧
        so ≤ (leaves.getD (si - idx) []).length ∧
        eo ≤ (leaves.getD (ei - idx) []).length ∧
        c + ((leaves.take (si - idx)).flatten).length + so = k ∧
        c + ((leaves.take (ei - idx)).flatten).length + eo = k + L := by
  intro leaves
  induction leaves with
  | nil =>
    intro c idx h1 h2
    simp at h2
    omega
  | cons node rest ih =>
    intro c idx h1 h2
    rw [slowWalk_cons_none]
    by_cases hstart : c + node.length > k
    · rw [if_pos hstart]
      by_cases hend : c + node.length ≥ k + L
      · rw [if_pos hend]
        refine ⟨idx, k - c, idx, k + L - c, rfl, by omega, by omega, by simp, by simp,
          ?_, ?_, ?_, ?_⟩
        · simp
          omega
        · simp
          omega
        · simp
          omega
        · simp
          omega
      · rw [if_neg hend]
        have hb : k + L ≤ c + node.length + rest.flatten.length := by
          rw [List.flatten_cons, List.length_append] at h2
          omega
        obtain ⟨ei, eo, hw, h3, h4, h5, h6⟩ :=
          slowWalk_some k L idx (k - c) rest (c + node.length) (idx + 1) (by omega) hb
        refine ⟨idx, k - c, ei, eo, hw, by omega, by omega, by simp, ?_, ?_, ?_, ?_, ?_⟩
        · simp
          omega
        · simp
          omega
        · have : ei - idx = (ei - (idx + 1)) + 1 := by omega
          rw [this]
          simpa using h5
        · simp
          omega
        · have : ei - idx = (ei - (idx + 1)) + 1 := by omega
          rw [this]
          simp only [List.take_succ_cons, List.flatten_cons, List.length_append]
          omega
    · rw [if_neg hstart]
      have hb : k + L ≤ c + node.length + rest.flatten.length := by
        rw [List.flatten_cons, List.length_append] at h2
        omega
      obtain ⟨si, so, ei, eo, hw, h3, h4, h5, h6, h7, h8, h9, h10⟩ :=
        ih (c + node.length) (idx + 1) (by omega) hb
      have hsi : si - idx = (si - (idx + 1)) + 1 := by omega
      have hei : ei - idx = (ei - (idx + 1)) + 1 := by omega
      refine ⟨si, so, ei, eo, hw, by omega, by omega, ?_, ?_, ?_, ?_, ?_, ?_⟩
      · simp
        omega
      · simp
        omega
      · rw [hsi]
        simpa using h7
      · rw [hei]
        simpa using h8
      · rw [hsi]
        simp only [List.take_succ_cons, List.flatten_cons, List.length_append]
        omega
      · rw [hei]
        simp only [List.take_succ_cons, List.flatten_cons, List.length_append]
        omega

theorem resolver_char (leaves : List Str) (t : Str) (ht : t ≠ [])
    (hocc : occursIn t leaves.flatten = true) :
    ∃ si so ei eo,
      findTextInDOM leaves t = some (si, so, ei, eo) ∧
      rangeText leaves si so ei eo = t ∧
      t.isPrefixOf (leaves.flatten.drop (flatPos leaves si so)) = true ∧
      (∀ i, firstContainingLeaf leaves t = some i →
        si = i ∧ ei = i ∧ firstIndex? (leaves.getD i []) t = some so ∧
          eo = so + t.length) ∧
      (firstContainingLeaf leaves t = none →
        firstIndex? leaves.flatten t = some (flatPos leaves si so) ∧
        flatPos leaves ei eo = flatPos leaves si so + t.length) := by
  have hL : 1 ≤ t.length := List.length_pos.mpr ht
  cases hfc : firstContainingLeaf leaves t with
  | some i =>
    obtain ⟨hilen, hio, _⟩ := firstContainingLeaf_some hfc
    obtain ⟨j, hj, hscan⟩ := fastScan_some hfc
    have hsound := firstIndex_sound hj
    have hjlen : j + t.length ≤ (leaves.getD i []).length := by
      have hlen := hsound.2.length_le
      rw [List.length_drop] at hlen
      omega
    have hflat := flatten_drop_flatPos leaves i j hilen (by omega)
    refine ⟨i, j, i, j + t.length, ?_, ?_, ?_, ?_, ?_⟩
    · rw [findTextInDOM, hscan 0]
      simp
    · rw [rangeText_eq leaves i j i (j + t.length) (Nat.le_refl i) (by omega) hjlen hilen]
      have hdelta : flatPos leaves i (j + t.length) - flatPos leaves i j = t.length := by
        simp only [flatPos]
        omega
      rw [hdelta, hflat]
      rw [List.take_append_of_le_length (by rw [List.length_drop]; omega)]
      exact firstIndex_take hj
    · rw [hflat, List.isPrefixOf_iff_prefix]
      exact hsound.2.trans (List.prefix_append _ _)
    · intro i' hi'
      injection hi' with hi'
      subst hi'
      exact ⟨rfl, rfl, hj, rfl⟩
    · intro hnone
      cases hnone
  | none =>
    have hleaf := firstContainingLeaf_none hfc
    have hfs := fastScan_none (t := t) hleaf 0
    obtain ⟨k, hk⟩ := firstIndex_isSome_of_occurs hocc
    have hksound := firstIndex_sound hk
    have hkL : k + t.length ≤ leaves.flatten.length := by
      have hlen := hksound.2.length_le
      rw [List.length_drop] at hlen
      omega
    obtain ⟨si, so, ei, eo, hw, _, hsie, hsilen, heilen, hso, heo, hstartEq, hendEq⟩ :=
      slowWalk_none k t.length hL leaves 0 0 (by omega) (by omega)
    simp only [Nat.sub_zero] at hsilen heilen hso heo hstartEq hendEq
    have hfpS : flatPos leaves si so = k := by
      rw [flatPos]
      omega
    have hfpE : flatPos leaves ei eo = k + t.length := by
      rw [flatPos]
      omega
    refine ⟨si, so, ei, eo, ?_, ?_, ?_, ?_, ?_⟩
    · rw [findTextInDOM, hfs]
      simp only
      rw [hk]
      exact hw
    · rw [rangeText_eq leaves si so ei eo hsie hso heo heilen, hfpS, hfpE]
      have hdelta : k + t.length - k = t.length := by omega
      rw [hdelta]
      exact firstIndex_take hk
    · rw [hfpS, List.isPrefixOf_iff_prefix]
      exact hksound.2
    · intro i hi
      cases hi
    · intro _
      rw [hfpS, hfpE]
      exact ⟨hk, rfl⟩

/-- C1: round trip.  Decoding the encoding of a document and annotation
set — through the spec-modelled share codec and the `loadFromHash`
consumer from useSharing.ts — reproduces the document exactly and every
annotation with all semantic fields (id, blockId, offsets as captured,
type, comment text, originalText, author, creation stamp) unchanged;
only the optional anchor hints startMeta/endMeta are absent after
decode. -/
theorem shareRoundTrip_c1 (d : Str) (anns : List Annotation ) (m0 : Str)
    (a0 : List Annotation ) :
    loadFromHash (encodeShare d anns) m0 a0 =
      (d, anns.map (fun a => { a with startMeta := none, endMeta := none })) := by
  rw [loadFromHash, decodeShare_encodeShare]
  simp [List.map_map, Function.comp, fromShareable_toShareable]

/-- C2 (counterexample): the claim says the first occurrence in document
order always wins.  On the leaves ab / cdxxabcd the text abcd occurs at
flattened positions 0 (spanning both leaves) and 6, yet `findTextInDOM`
returns the range at flattened position 6: its fast path prefers the
first occurrence wholly inside a single text node. -/
theorem resolverFirstOccurrence_counterexample_c2 :
    findTextInDOM ["ab".data, "cdxxabcd".data] ("abcd".data) = some (1, 4, 1, 8) ∧
    firstIndex? (["ab".data, "cdxxabcd".data].flatten) ("abcd".data) = some 0 ∧
    ("abcd".data).isPrefixOf ((["ab".data, "cdxxabcd".data].flatten).drop 0) = true ∧
    ("abcd".data).isPrefixOf ((["ab".data, "cdxxabcd".data].flatten).drop 6) = true ∧
    flatPos ["ab".data, "cdxxabcd".data] 1 4 = 6 ∧ (6 : Nat) ≠ 0 := by decide

/-- C2 (amended): whenever `originalText` occurs in the flattened
document text, the resolver returns — deterministically, being a pure
function of its inputs — a range whose flattened text equals
`originalText`, anchored at an actual occurrence; the occurrence chosen
is the first one wholly contained in a single text leaf (at that leaf's
first in-leaf index) when such a leaf exists, and only otherwise the
first occurrence in flattened document order.  In particular a uniquely
occurring text is always relocated exactly. -/
theorem resolverAmended_c2 (leaves : List Str) (t : Str) (ht : t ≠ [])
    (hocc : occursIn t leaves.flatten = true) :
    ∃ si so ei eo,
      findTextInDOM leaves t = some (si, so, ei, eo) ∧
      rangeText leaves si so ei eo = t ∧
      t.isPrefixOf (leaves.flatten.drop (flatPos leaves si so)) = true ∧
      (∀ i, firstContainingLeaf leaves t = some i →
        si = i ∧ ei = i ∧ firstIndex? (leaves.getD i []) t = some so ∧
          eo = so + t.length) ∧
      (firstContainingLeaf leaves t = none →
        firstIndex? leaves.flatten t = some (flatPos leaves si so) ∧
        flatPos leaves ei eo = flatPos leaves si so + t.length) :=
  resolver_char leaves t ht hocc

theorem resolverAmended_c2_witness :
    (("qk".data : Str) ≠ []) ∧
    occursIn ("qk".data) (["The ".data, "qk fox".data].flatten) = true ∧
    (∃ si so ei eo,
      findTextInDOM ["The ".data, "qk fox".data] ("qk".data) = some (si, so, ei, eo) ∧
      rangeText ["The ".data, "qk fox".data] si so ei eo = "qk".data ∧
      ("qk".data).isPrefixOf
        ((["The ".data, "qk fox".data].flatten).drop
          (flatPos ["The ".data, "qk fox".data] si so)) = true ∧
      (∀ i, firstContainingLeaf ["The ".data, "qk fox".data] ("qk".data) = some i →
        si = i ∧ ei = i ∧
          firstIndex? (["The ".data, "qk fox".data].getD i []) ("qk".data) = some so ∧
          eo = so + ("qk".data).length) ∧
      (firstContainingLeaf ["The ".data, "qk fox".data] ("qk".data) = none →
        firstIndex? (["The ".data, "qk fox".data].flatten) ("qk".data) =
          some (flatPos ["The ".data, "qk fox".data] si so) ∧
        flatPos ["The ".data, "qk fox".data] ei eo =
          flatPos ["The ".data, "qk fox".data] si so + ("qk".data).length)) :=
  ⟨by decide, by decide,
    resolverAmended_c2 ["The ".data, "qk fox".data] ("qk".data) (by decide) (by decide)⟩

/-- C3: at the moment of creation — whether by free-text selection commit
(`createAnnotationFromSource`, provided the selected text occurs in the
block's flattened text, which the split-based offset capture presupposes)
or by whole-code-block commit (`handleCodeBlockAnnotate`) — the
annotation's `originalText` equals the substring of the referenced
block's flattened text from `startOffset` (inclusive) to `endOffset`
(exclusive). -/
theorem creationInvariant_c3 (hit : BlockHit) (source : HlSource )
    (ty : AnnotationType ) (text : Option Str) (now : Nat) (ident : Str)
    (blockId codeText : Str) (cty : AnnotationType ) (ctext : Option Str)
    (hocc : occursIn source.text hit.blockText = true) :
    ((hit.blockText.drop
        (createAnnotationFromSource (some hit) source ty text now ident).startOffset).take
      ((createAnnotationFromSource (some hit) source ty text now ident).endOffset -
        (createAnnotationFromSource (some hit) source ty text now ident).startOffset) =
      (createAnnotationFromSource (some hit) source ty text now ident).originalText) ∧
    ((codeText.drop
        (handleCodeBlockAnnotate blockId codeText cty ctext now ident).startOffset).take
      ((handleCodeBlockAnnotate blockId codeText cty ctext now ident).endOffset -
        (handleCodeBlockAnnotate blockId codeText cty ctext now ident).startOffset) =
      (handleCodeBlockAnnotate blockId codeText cty ctext now ident).originalText) := by
  constructor
  · simp only [createAnnotationFromSource]
    have harith : (splitHead hit.blockText source.text).length + source.text.length -
        (splitHead hit.blockText source.text).length = source.text.length := by omega
    rw [harith]
    exact splitHead_spec hocc
  · simp only [handleCodeBlockAnnotate]
    simp

theorem creationInvariant_c3_witness :
    occursIn ("us".data) ("mouse".data) = true ∧
    ((("mouse".data : Str).drop
        (createAnnotationFromSource (some ⟨"b1".data, "mouse".data⟩)
          ⟨"h1".data, "us".data, none, none⟩ AnnotationType.deletion none 5 ("me".data)).startOffset).take
      ((createAnnotationFromSource (some ⟨"b1".data, "mouse".data⟩)
          ⟨"h1".data, "us".data, none, none⟩ AnnotationType.deletion none 5 ("me".data)).endOffset -
        (createAnnotationFromSource (some ⟨"b1".data, "mouse".data⟩)
          ⟨"h1".data, "us".data, none, none⟩ AnnotationType.deletion none 5 ("me".data)).startOffset) =
      (createAnnotationFromSource (some ⟨"b1".data, "mouse".data⟩)
          ⟨"h1".data, "us".data, none, none⟩ AnnotationType.deletion none 5 ("me".data)).originalText) ∧
    ((("code".data : Str).drop
        (handleCodeBlockAnnotate ("b2".data) ("code".data) AnnotationType.comment
          (some ("hi".data)) 7 ("me".data)).startOffset).take
      ((handleCodeBlockAnnotate ("b2".data) ("code".data) AnnotationType.comment
          (some ("hi".data)) 7 ("me".data)).endOffset -
        (handleCodeBlockAnnotate ("b2".data) ("code".data) AnnotationType.comment
          (some ("hi".data)) 7 ("me".data)).startOffset) =
      (handleCodeBlockAnnotate ("b2".data) ("code".data) AnnotationType.comment
          (some ("hi".data)) 7 ("me".data)).originalText) := by
  refine ⟨by decide, ?_, ?_⟩
  · exact (creationInvariant_c3 ⟨"b1".data, "mouse".data⟩ ⟨"h1".data, "us".data, none, none⟩
      AnnotationType.deletion none 5 ("me".data) ("b2".data) ("code".data)
      AnnotationType.comment (some ("hi".data)) (by decide)).1
  · exact (creationInvariant_c3 ⟨"b1".data, "mouse".data⟩ ⟨"h1".data, "us".data, none, none⟩
      AnnotationType.deletion none 5 ("me".data) ("b2".data) ("code".data)
      AnnotationType.comment (some ("hi".data)) (by decide)).2

/-- C4: when an annotation's `originalText` no longer occurs verbatim in
the current document and the annotation is not already represented, the
resolver returns NOT_FOUND (`none`, never an exception — the model is a
total function), and batch application skips exactly that annotation,
recording a warning for it, while the web-highlighter registry and the
DOM produced for the rest of the batch are exactly those of the batch
without it. -/
theorem notFoundSkip_c4 (s : ViewerState ) (pre post : List Annotation )
    (ann : Annotation )
    (hno : occursIn ann.originalText (flattenForest s.dom) = false)
    (hw : ann.id ∉ s.webMarks) (hb : hasBindId ann.id s.dom = false)
    (hpre : ann.id ∉ pre.map (fun a => a.id)) :
    findTextInDOM (textLeaves s.dom) ann.originalText = none ∧
    (applySharedAnnotations s (pre ++ ann :: post)).webMarks =
      (applySharedAnnotations s (pre ++ post)).webMarks ∧
    (applySharedAnnotations s (pre ++ ann :: post)).dom =
      (applySharedAnnotations s (pre ++ post)).dom ∧
    ann.id ∈ (applySharedAnnotations s (pre ++ ann :: post)).warnings := by
  refine ⟨findTextInDOM_none (by rwa [flattenForest] at hno), ?_, ?_, ?_⟩
  · exact (applyShared_insert_warn ann post pre s hno hw hb hpre).1
  · exact (applyShared_insert_warn ann post pre s hno hw hb hpre).2.1
  · exact (applyShared_insert_warn ann post pre s hno hw hb hpre).2.2

theorem notFoundSkip_c4_witness :
    occursIn (sampleAnn.originalText) (flattenForest sampleState.dom) = false ∧
    sampleAnn.id ∉ sampleState.webMarks ∧
    hasBindId sampleAnn.id sampleState.dom = false ∧
    sampleAnn.id ∉ ([] : List Annotation ).map (fun a => a.id) ∧
    (findTextInDOM (textLeaves sampleState.dom) sampleAnn.originalText = none ∧
      (applySharedAnnotations sampleState ([] ++ sampleAnn :: [])).webMarks =
        (applySharedAnnotations sampleState ([] ++ [])).webMarks ∧
      (applySharedAnnotations sampleState ([] ++ sampleAnn :: [])).dom =
        (applySharedAnnotations sampleState ([] ++ [])).dom ∧
      sampleAnn.id ∈ (applySharedAnnotations sampleState ([] ++ sampleAnn :: [])).warnings) := by
  refine ⟨by decide, by decide, by decide, by decide, ?_⟩
  exact notFoundSkip_c4 sampleState [] [] sampleAnn (by decide) (by decide) (by decide)
    (by decide)

/-- C5: a decoded annotation whose id is already represented in either
highlight index — the web-highlighter registry (`getDoms`) or the
manually tagged wrapper index (`[data-bind-id]`) — is skipped by
`applySharedAnnotations`; when every id of a batch is represented (as
after the batch has been applied once), applying it again leaves the
state exactly unchanged: no new visual marker, no duplicate registry
entry. -/
theorem idempotentApply_c5 (s : ViewerState ) (anns : List Annotation )
    (h : ∀ a ∈ anns, a.id ∈ s.webMarks ∨ hasBindId a.id s.dom = true) :
    applySharedAnnotations s anns = s :=
  applyShared_skip_all anns s h

theorem idempotentApply_c5_witness :
    (∀ a ∈ [sampleAnn], a.id ∈ sampleMarked.webMarks ∨
      hasBindId a.id sampleMarked.dom = true) ∧
    applySharedAnnotations sampleMarked [sampleAnn] = sampleMarked := by
  refine ⟨?_, ?_⟩
  · intro a ha
    simp only [List.mem_singleton] at ha
    subst ha
    left
    decide
  · exact idempotentApply_c5 sampleMarked [sampleAnn]
      (by intro a ha; simp only [List.mem_singleton] at ha; subst ha; left; decide)

/-- C6: at most one pending selection exists (the state holds a single
optional pending source by construction); completing a new selection B
while A is pending removes A's visual highlight from the marks and leaves
exactly one pending highlight, B's. -/
theorem pendingExclusive_c6 (s : SelState ) (A B : HlSource )
    (blockInfo : Option BlockHit) (now : Nat) (ident : Str)
    (hA : s.pendingSource = some A) (hnodup : s.webMarks.Nodup)
    (hne : A.id ≠ B.id) :
    (onCreateEvent EditorMode.select blockInfo now ident s B).1.pendingSource = some B ∧
    A.id ∉ (onCreateEvent EditorMode.select blockInfo now ident s B).1.webMarks ∧
    B.id ∈ (onCreateEvent EditorMode.select blockInfo now ident s B).1.webMarks := by
  have h1 : (onCreateEvent EditorMode.select blockInfo now ident s B).1.webMarks =
      (B.id :: s.webMarks).erase A.id := by
    simp [onCreateEvent, hA]
  refine ⟨rfl, ?_, ?_⟩
  · rw [h1, List.erase_cons_tail (by simp [Ne.symm hne])]
    simp [hne, List.Nodup.not_mem_erase hnodup]
  · rw [h1, List.erase_cons_tail (by simp [Ne.symm hne])]
    simp

theorem pendingExclusive_c6_witness :
    (({ pendingSource := some ⟨"p0".data, "t0".data, none, none⟩,
        toolbar := some ⟨"p0".data, "t0".data, none, none⟩,
        webMarks := ["p0".data] } : SelState ).pendingSource =
      some ⟨"p0".data, "t0".data, none, none⟩) ∧
    (["p0".data] : List Str).Nodup ∧
    ("p0".data : Str) ≠ "p1".data ∧
    ((onCreateEvent EditorMode.select none 3 ("me".data)
        { pendingSource := some ⟨"p0".data, "t0".data, none, none⟩,
          toolbar := some ⟨"p0".data, "t0".data, none, none⟩,
          webMarks := ["p0".data] }
        ⟨"p1".data, "t1".data, none, none⟩).1.pendingSource =
      some ⟨"p1".data, "t1".data, none, none⟩ ∧
    ("p0".data : Str) ∉ (onCreateEvent EditorMode.select none 3 ("me".data)
        { pendingSource := some ⟨"p0".data, "t0".data, none, none⟩,
          toolbar := some ⟨"p0".data, "t0".data, none, none⟩,
          webMarks := ["p0".data] }
        ⟨"p1".data, "t1".data, none, none⟩).1.webMarks ∧
    ("p1".data : Str) ∈ (onCreateEvent EditorMode.select none 3 ("me".data)
        { pendingSource := some ⟨"p0".data, "t0".data, none, none⟩,
          toolbar := some ⟨"p0".data, "t0".data, none, none⟩,
          webMarks := ["p0".data] }
        ⟨"p1".data, "t1".data, none, none⟩).1.webMarks) := by
  refine ⟨rfl, by decide, by decide, ?_⟩
  exact pendingExclusive_c6
    { pendingSource := some ⟨"p0".data, "t0".data, none, none⟩,
      toolbar := some ⟨"p0".data, "t0".data, none, none⟩,
      webMarks := ["p0".data] }
    ⟨"p0".data, "t0".data, none, none⟩ ⟨"p1".data, "t1".data, none, none⟩
    none 3 ("me".data) rfl (by decide) (by decide)

/-- C7: in redline mode, a completed selection commits immediately as a
deletion annotation: the CREATE handler emits the committed record in the
same transition and the resulting state holds no pending selection (no
observable intermediate pending state); the record is exactly the one the
explicit delete classification (`handleAnnotate`) would emit for the same
source, so it satisfies the same Annotation contract. -/
theorem redlineAutoCommit_c7 (s : SelState ) (source : HlSource )
    (blockInfo : Option BlockHit) (now : Nat) (ident : Str) :
    (onCreateEvent EditorMode.redline blockInfo now ident s source).2 =
      some (createAnnotationFromSource blockInfo source AnnotationType.deletion
        none now ident) ∧
    (onCreateEvent EditorMode.redline blockInfo now ident s source).1.pendingSource =
      none ∧
    (onCreateEvent EditorMode.redline blockInfo now ident s source).2 =
      (handleAnnotate blockInfo now ident
        { pendingSource := some source, toolbar := some source,
          webMarks := s.webMarks }
        AnnotationType.deletion none).2 := by
  refine ⟨?_, ?_, ?_⟩ <;> simp [onCreateEvent, handleAnnotate]

/-- C8: removing an applied annotation — by single delete
(`removeHighlight`) or by clear-all (`clearAllHighlights`) — unwraps the
visual marker while preserving its inner content, leaving the document's
flattened text byte-identical to its pre-highlight state; in particular
removing an annotation right after wrapping it restores exactly the text
from before the wrap. -/
theorem removalReversible_c8 (s : ViewerState ) (id : Str) (si so ei eo : Nat)
    (tag bid : Str) :
    flattenForest (removeHighlight s id).dom = flattenForest s.dom ∧
    flattenForest (clearAllHighlights s).dom = flattenForest s.dom ∧
    flattenForest
        (removeHighlight { s with dom := wrapRange s.dom si so ei eo tag bid } id).dom =
      flattenForest s.dom := by
  refine ⟨?_, ?_, ?_⟩
  · rw [removeHighlight]
    simp only [flattenForest]
    rw [unwrapFirst_leaves]
  · rw [clearAllHighlights]
    simp only [flattenForest]
    rw [unwrapAll_leaves]
  · rw [removeHighlight]
    simp only [flattenForest]
    rw [unwrapFirst_leaves]
    exact wrapRange_flatten s.dom si so ei eo tag bid

/-- C9: when the range to wrap spans more than one text node — the case
in which `Range.surroundContents` can throw and the code falls back to
extract-and-reinsert — the wrap still preserves the document's flattened
text exactly: no content is lost or duplicated, and the model is a total
function (the conflict never escapes to the user). -/
theorem extractReinsert_c9 (cs : List DomNode) (si so ei eo : Nat) (tag bid : Str)
    (_hspan : si ≠ ei) :
    flattenForest (wrapRange cs si so ei eo tag bid) = flattenForest cs :=
  wrapRange_flatten cs si so ei eo tag bid

theorem extractReinsert_c9_witness :
    (0 : Nat) ≠ 1 ∧
    flattenForest
        (wrapRange [DomNode.text ("ab".data), DomNode.text ("cd".data)] 0 1 1 1
          ("mark".data) ("w1".data)) =
      flattenForest [DomNode.text ("ab".data), DomNode.text ("cd".data)] :=
  ⟨by decide, extractReinsert_c9 [DomNode.text ("ab".data), DomNode.text ("cd".data)]
    0 1 1 1 ("mark".data) ("w1".data) (by decide)⟩

/-- C10 (counterexample): the claim says every committed Annotation
carries a `createdAt` creation timestamp; the object literals built by
both commit paths carry the creation time under the key `createdA`
instead — `createdAt` is not among their keys. -/
theorem commitShape_counterexample_c10 :
    "createdAt" ∉ annotationLiteralKeys ∧ "createdAt" ∉ codeBlockLiteralKeys ∧
    "createdA" ∈ annotationLiteralKeys ∧ "createdA" ∈ codeBlockLiteralKeys := by
  decide

/-- C10 (amended): every Annotation created by a commit — selection
commit or whole-code-block commit — carries the full record shape of the
data model, with the creation timestamp stored under the source's field
name `createdA` (not `createdAt`) and set to the commit time, and with an
author value taken from the per-device identity store. -/
theorem commitShape_amended_c10 (blockInfo : Option BlockHit) (source : HlSource )
    (ty : AnnotationType ) (text : Option Str) (now : Nat)
    (adjective noun : Str) (store : Storage) (blockId codeText : Str) :
    ((createAnnotationFromSource blockInfo source ty text now
        (getIdentity adjective noun store).1).createdA = now) ∧
    ((createAnnotationFromSource blockInfo source ty text now
        (getIdentity adjective noun store).1).author =
      (getIdentity adjective noun store).1) ∧
    ((handleCodeBlockAnnotate blockId codeText ty text now
        (getIdentity adjective noun store).1).createdA = now) ∧
    ((handleCodeBlockAnnotate blockId codeText ty text now
        (getIdentity adjective noun store).1).author =
      (getIdentity adjective noun store).1) ∧
    "createdA" ∈ annotationLiteralKeys ∧ "author" ∈ annotationLiteralKeys ∧
    "createdA" ∈ codeBlockLiteralKeys ∧ "author" ∈ codeBlockLiteralKeys :=
  ⟨rfl, rfl, rfl, rfl, by decide, by decide, by decide, by decide⟩
